import Mathlib

/-!
Shallow embedding of `src/api/yields.js` (a Vercel serverless function that
aggregates stablecoin yield opportunities), together with theorems settling
the claims about it.

Modelling conventions:
- JS numbers are modelled as `ℚ` (the code only adds, divides, compares and
  rounds to two decimals; no float-specific behaviour is claimed).
- `fetch` outcomes are modelled as `Except String J`: the resolved value of a
  network request, or the error it rejected with.  Adapters receive the
  settled outcome of their `fetchWithRetry` call as an explicit argument.
- Wall-clock time (`new Date().toISOString()`) is abstracted as a `now : String`
  argument threaded to every place the code stamps a timestamp.
- `try { body } catch { handler }` over async code is modelled by `tryCatchE`
  on `Except` computations.
-/

/-- Outcome of a `fetchWithRetry` call: the value the promise settles with
(`none` models the loop falling through and returning `undefined`), the list
of backoff sleeps performed (in milliseconds, in order), and the number of
fetch attempts performed. -/
structure FetchOutcome where
  result : Option (Except String String)
  delays : List Nat
  attempts : Nat
deriving Repr

/-- The body of `fetchWithRetry`'s `for (let i = 0; i < retries; i++)` loop,
starting at loop index `i`.  `att j` is the outcome of the `j`-th fetch
attempt (`await fetch(url)` followed by the `response.ok` check and JSON
parsing): `Except.ok` is a parsed body, `Except.error` the thrown error.
On failure at the last index the error is rethrown; otherwise the code sleeps
`1000 * 2 ^ i` ms and continues. -/
def fetchLoop (att : Nat → Except String String) (retries : Int) (i : Nat) :
    FetchOutcome :=
  if _h : (i : Int) < retries then
    match att i with
    | Except.ok v => ⟨some (Except.ok v), [], 1⟩
    | Except.error e =>
      if (i : Int) = retries - 1 then
        ⟨some (Except.error e), [], 1⟩
      else
        let rest := fetchLoop att retries (i + 1)
        ⟨rest.result, 1000 * 2 ^ i :: rest.delays, rest.attempts + 1⟩
  else ⟨none, [], 0⟩
termination_by (retries - i).toNat
decreasing_by
  omega

/-- `fetchWithRetry(url, retries)`: runs the retry loop from index 0.
The `url` argument is absorbed into the attempt oracle `att`. -/
def fetchWithRetry (att : Nat → Except String String) (retries : Int) :
    FetchOutcome :=
  fetchLoop att retries 0

/-- `parseFloat(x.toFixed(2))`: rounds to two decimal places.  ECMAScript's
`toFixed` picks the representation closest to `x`, breaking ties towards the
larger value, i.e. round-half-up on `100 * x`. -/
def round2 (x : ℚ) : ℚ := (⌊100 * x + 1 / 2⌋ : ℤ) / 100

/-- Does `needle` occur as a prefix of `hay`?  (Char-list level.) -/
def prefMatch : List Char → List Char → Bool
  | [], _ => true
  | _ :: _, [] => false
  | a :: as, b :: bs => a == b && prefMatch as bs

/-- Does `needle` occur as a contiguous sublist of `hay`?  (Char-list level.) -/
def subMatch (needle : List Char) : List Char → Bool
  | [] => prefMatch needle []
  | b :: bs => prefMatch needle (b :: bs) || subMatch needle bs

/-- JS `s.includes(sub)`: substring containment. -/
def strIncludes (s sub : String) : Bool := subMatch sub.data s.data

/-- JS `s.toLowerCase()` restricted to ASCII, which is all the categorizer's
keyword table uses: lowercases every character. -/
def toLowerStr (s : String) : String := String.mk (s.data.map Char.toLower)

/-- The `categories` table of `categorizeProtocol`, in object-literal order:
category name to lowercase keyword list. -/
def categories : List (String × List String) :=
  [("lending", ["aave", "compound", "morpho", "euler", "spark"]),
   ("dex", ["uniswap", "curve", "balancer", "velodrome"])]

/-- `category.charAt(0).toUpperCase() + category.slice(1)`: capitalizes the
first character, leaves the rest unchanged. -/
def capitalize (s : String) : String :=
  match s.data with
  | [] => ""
  | c :: cs => String.mk (Char.toUpper c :: cs)

/-- `categorizeProtocol(name)`: lowercases the name, walks the `categories`
table in order, and returns the capitalized name of the first category one of
whose keywords occurs in the lowered name; `"Other"` if none matches. -/
def categorizeProtocol (name : String) : String :=
  let lowerName := toLowerStr name
  match categories.find? (fun c => c.2.any (fun k => strIncludes lowerName k)) with
  | some c => capitalize c.1
  | none => "Other"

/-- The normalized yield record produced by the adapters.  Fields absent from
a given source's object literal are `none`. -/
structure YieldRecord where
  protocol : String
  stablecoin : String
  chain : String
  apy : ℚ
  tvl : ℚ
  apyBase : Option ℚ
  apyReward : Option ℚ
  type : String
  source : String
  maturity : Option String
  description : Option String
  url : String
  updatedAt : String
deriving DecidableEq, Repr

/-- One pool object of the DeFiLlama `/pools` response. -/
structure LlamaPool where
  project : String
  symbol : String
  chain : String
  stablecoin : Bool
  tvlUsd : ℚ
  apy : ℚ
  apyBase : Option ℚ
  apyReward : Option ℚ
deriving DecidableEq, Repr

/-- The DeFiLlama `/pools` response shape: `{ data: [...] }`. -/
structure LlamaResp where
  data : List LlamaPool
deriving DecidableEq, Repr

/-- The filter predicate of the DeFiLlama adapter:
`pool.stablecoin === true && pool.tvlUsd > 1000000 && pool.apy < 200`. -/
def llamaPoolOk (pool : LlamaPool) : Bool :=
  pool.stablecoin = true && pool.tvlUsd > 1000000 && pool.apy < 200

/-- The record the DeFiLlama adapter builds from one pool. -/
def mkLlamaRecord (now : String) (pool : LlamaPool) : YieldRecord :=
  { protocol := pool.project
    stablecoin := pool.symbol
    chain := pool.chain
    apy := round2 pool.apy
    tvl := pool.tvlUsd
    apyBase := some (pool.apyBase.getD 0)
    apyReward := some (pool.apyReward.getD 0)
    type := categorizeProtocol pool.project
    source := "defillama"
    maturity := none
    description := none
    url := "https://defillama.com/yields?token=" ++ pool.symbol ++ "&chain=" ++ pool.chain
    updatedAt := now }

/-- `try { body } catch (e) { handler e }` on `Except` computations. -/
def tryCatchE {E A : Type} (body : Except E A) (handler : E → Except E A) :
    Except E A :=
  match body with
  | Except.ok v => Except.ok v
  | Except.error e => handler e

/-- `fetchDefiLlamaYields`, before the outer `catch`: awaits the settled
fetch outcome `resp`, then filters, caps at 30 and maps. -/
def llamaBody (now : String) (resp : Except String LlamaResp) :
    Except String (List YieldRecord) :=
  resp.map (fun data =>
    ((data.data.filter llamaPoolOk).take 30).map (mkLlamaRecord now))

/-- `fetchDefiLlamaYields()` as the promise it returns: the `try` body with
the `catch` converting any error into `[]`. -/
def fetchDefiLlamaYieldsE (now : String) (resp : Except String LlamaResp) :
    Except String (List YieldRecord) :=
  tryCatchE (llamaBody now resp) (fun _ => Except.ok [])

/-- The list `fetchDefiLlamaYields()` resolves with (it never rejects; the
`Except.error` branch here mirrors `Promise.allSettled`'s rejected fallback). -/
def fetchDefiLlamaYields (now : String) (resp : Except String LlamaResp) :
    List YieldRecord :=
  match fetchDefiLlamaYieldsE now resp with
  | Except.ok v => v
  | Except.error _ => []

/-- One market object of the Pendle per-chain markets response. -/
structure PendleMarket where
  ptSymbol : String
  underlyingSymbol : String
  totalActiveLiquidity : ℚ
  impliedApy : ℚ
  expiry : String
deriving DecidableEq, Repr

/-- The Pendle markets response shape: `{ results: [...] }`; `none` models an
absent/falsy `results` field (the code guards with `if (data.results)`). -/
structure PendleResp where
  results : Option (List PendleMarket)
deriving DecidableEq, Repr

/-- The Pendle market filter:
`market.underlyingAsset.symbol.includes('USD') && market.totalActiveLiquidity > 1000000`. -/
def pendleMarketOk (market : PendleMarket) : Bool :=
  strIncludes market.underlyingSymbol "USD" && market.totalActiveLiquidity > 1000000

/-- The record the Pendle adapter pushes for one market of chain `chainName`. -/
def mkPendleRecord (now chainName : String) (market : PendleMarket) : YieldRecord :=
  { protocol := "Pendle " ++ market.ptSymbol
    stablecoin := market.underlyingSymbol
    chain := chainName
    apy := round2 (market.impliedApy * 100)
    tvl := market.totalActiveLiquidity
    apyBase := none
    apyReward := none
    type := "Fixed Yield"
    source := "pendle"
    maturity := some market.expiry
    description := none
    url := "https://app.pendle.finance/"
    updatedAt := now }

/-- One iteration of the Pendle adapter's per-chain loop: the inner
`try { ... } catch` contributes `[]` on a failed fetch; a present `results`
array is filtered, capped at 5 and mapped. -/
def pendleChainRecords (now chainName : String)
    (resp : Except String PendleResp) : List YieldRecord :=
  match resp with
  | Except.error _ => []
  | Except.ok data =>
    match data.results with
    | none => []
    | some results =>
      ((results.filter pendleMarketOk).take 5).map (mkPendleRecord now chainName)

/-- `fetchPendleYields()` as the promise it returns: the outer `try` body
iterates the two configured chains (Ethereum id 1, Arbitrum id 42161) and
accumulates `allYields`; the outer `catch` would convert any error into `[]`. -/
def fetchPendleYieldsE (now : String) (ethResp arbResp : Except String PendleResp) :
    Except String (List YieldRecord) :=
  tryCatchE
    (Except.ok
      (pendleChainRecords now "Ethereum" ethResp ++
        pendleChainRecords now "Arbitrum" arbResp))
    (fun _ => Except.ok [])

/-- The list `fetchPendleYields()` resolves with. -/
def fetchPendleYields (now : String) (ethResp arbResp : Except String PendleResp) :
    List YieldRecord :=
  match fetchPendleYieldsE now ethResp arbResp with
  | Except.ok v => v
  | Except.error _ => []

/-- `getManualYieldData()`: the fixed hand-curated list, stamped at call time. -/
def getManualYieldData (now : String) : List YieldRecord :=
  [{ protocol := "Midas mTBILL"
     stablecoin := "USDC"
     chain := "Ethereum"
     apy := 5.25
     tvl := 45000000
     apyBase := none
     apyReward := none
     type := "RWA"
     source := "midas"
     maturity := none
     description := some "BlackRock Treasury Bond backed"
     url := "https://midas.app/"
     updatedAt := now },
   { protocol := "Gauntlet USD Alpha"
     stablecoin := "USDC"
     chain := "Multi-chain"
     apy := 8.5
     tvl := 250000000
     apyBase := none
     apyReward := none
     type := "Risk-Managed"
     source := "gauntlet"
     maturity := none
     description := some "Institutional-grade risk-adjusted yield"
     url := "https://www.gauntlet.xyz/"
     updatedAt := now },
   { protocol := "YieldFi yUSD"
     stablecoin := "USDC/USDT"
     chain := "Multi-chain"
     apy := 23.5
     tvl := 121000000
     apyBase := none
     apyReward := none
     type := "Multi-Strategy"
     source := "yieldfi"
     maturity := none
     description := some "Professional asset management"
     url := "https://yield.fi/"
     updatedAt := now }]

/-- `[...new Set(xs)]`: deduplication preserving first-occurrence order
(`seen` accumulates the values already emitted). -/
def dedupFirstAux (seen : List String) : List String → List String
  | [] => []
  | x :: xs =>
    if x ∈ seen then dedupFirstAux seen xs
    else x :: dedupFirstAux (x :: seen) xs

/-- `[...new Set(xs)]` with no values seen yet. -/
def dedupFirst (xs : List String) : List String := dedupFirstAux [] xs

/-- `Math.max(...)` over a nonempty argument list (the code guards emptiness;
the `[]` case is never reached under that guard). -/
def maxNum : List ℚ → ℚ
  | [] => 0
  | x :: xs => xs.foldl max x

/-- `Math.min(...)` over a nonempty argument list. -/
def minNum : List ℚ → ℚ
  | [] => 0
  | x :: xs => xs.foldl min x

/-- The `stats` object computed by the handler. -/
structure YieldStats where
  totalOpportunities : Nat
  totalTVL : ℚ
  avgAPY : ℚ
  maxAPY : ℚ
  minAPY : ℚ
  sources : List String
  chains : List String
  updatedAt : String
deriving DecidableEq, Repr

/-- The handler's statistics computation over the merged record list. -/
def stats (now : String) (allYields : List YieldRecord) : YieldStats :=
  { totalOpportunities := allYields.length
    totalTVL := allYields.foldl (fun sum y => sum + y.tvl) 0
    avgAPY :=
      if allYields.length > 0 then
        allYields.foldl (fun sum y => sum + y.apy) 0 / allYields.length
      else 0
    maxAPY := if allYields.length > 0 then maxNum (allYields.map (·.apy)) else 0
    minAPY := if allYields.length > 0 then minNum (allYields.map (·.apy)) else 0
    sources := dedupFirst (allYields.map (·.source))
    chains := dedupFirst (allYields.map (·.chain))
    updatedAt := now }

/-- The JSON body the handler sends: the success envelope
`{success: true, data, stats}` or the failure envelope
`{success: false, error}` (`message` omitted where the code omits it). -/
inductive RespBody where
  | success (data : List YieldRecord) (stats : YieldStats)
  | failure (error : String)
deriving DecidableEq, Repr

/-- An HTTP response: status code and optional JSON body (`none` models
`res.status(...).end()` with an empty body). -/
structure HttpResponse where
  status : Nat
  body : Option RespBody
deriving DecidableEq, Repr

/-- `Promise.allSettled` fallback in the handler's merge:
`x.status === 'fulfilled' ? x.value : []`. -/
def settledValue (s : Except String (List YieldRecord)) : List YieldRecord :=
  match s with
  | Except.ok v => v
  | Except.error _ => []

/-- The merged `allYields` array of the handler: DeFiLlama records, then
Pendle records, then Manual records, each through the allSettled fallback. -/
def allYieldsOf (now : String) (llamaResp : Except String LlamaResp)
    (ethResp arbResp : Except String PendleResp) : List YieldRecord :=
  settledValue (fetchDefiLlamaYieldsE now llamaResp) ++
    settledValue (fetchPendleYieldsE now ethResp arbResp) ++
    settledValue (Except.ok (getManualYieldData now))

/-- The serverless `handler`: OPTIONS short-circuits with 200 and empty body,
non-GET methods get 405 with the method-not-allowed envelope, and GET returns
200 with the merged data and its statistics.  The handler's own `catch`
(HTTP 500) is unreachable in this embedding: its `try` body is total. -/
def handler (method now : String) (llamaResp : Except String LlamaResp)
    (ethResp arbResp : Except String PendleResp) : HttpResponse :=
  if method = "OPTIONS" then ⟨200, none⟩
  else if method ≠ "GET" then ⟨405, some (RespBody.failure "Method not allowed")⟩
  else
    let allYields := allYieldsOf now llamaResp ethResp arbResp
    ⟨200, some (RespBody.success allYields (stats now allYields))⟩

/-- The pool list carried by a settled DeFiLlama fetch outcome (empty for a
failed fetch); used to state which upstream pools an output can draw from. -/
def llamaRespData : Except String LlamaResp → List LlamaPool
  | Except.ok r => r.data
  | Except.error _ => []

/-- A DeFiLlama pool that passes every filter of the adapter while reporting
a negative APY: the filters bound `apy` above (`< 200`) but not below. -/
def badPool : LlamaPool :=
  { project := "Aave V3"
    symbol := "USDC"
    chain := "Ethereum"
    stablecoin := true
    tvlUsd := 2000000
    apy := -1
    apyBase := none
    apyReward := none }

/-! ### Helper lemmas -/

/-- `Char.ofNat` round-trips on valid codepoints. -/
theorem toNat_ofNat_valid {n : Nat} (h : n.isValidChar) : (Char.ofNat n).toNat = n := by
  unfold Char.ofNat
  rw [dif_pos h]
  rfl

/-- `Char.toLower` fixes characters outside `A`-`Z`. -/
theorem toLower_eq_of_not_upper {c : Char} (h : ¬(c.toNat ≥ 65 ∧ c.toNat ≤ 90)) :
    c.toLower = c := by
  unfold Char.toLower
  exact if_neg h

/-- `Char.toLower` shifts `A`-`Z` down into `a`-`z`. -/
theorem toLower_eq_of_upper {c : Char} (h : c.toNat ≥ 65 ∧ c.toNat ≤ 90) :
    c.toLower = Char.ofNat (c.toNat + 32) := by
  unfold Char.toLower
  exact if_pos h

/-- `Char.toLower` is idempotent. -/
theorem toLower_toLower (c : Char) : c.toLower.toLower = c.toLower := by
  by_cases h : c.toNat ≥ 65 ∧ c.toNat ≤ 90
  · rw [toLower_eq_of_upper h]
    apply toLower_eq_of_not_upper
    rw [toNat_ofNat_valid (Or.inl (by omega))]
    omega
  · rw [toLower_eq_of_not_upper h, toLower_eq_of_not_upper h]

/-- Lowercasing a string is idempotent. -/
theorem toLowerStr_idem (s : String) : toLowerStr (toLowerStr s) = toLowerStr s := by
  show String.mk ((s.data.map Char.toLower).map Char.toLower) = String.mk (s.data.map Char.toLower)
  rw [List.map_map]
  have hcomp : Char.toLower ∘ Char.toLower = Char.toLower := funext toLower_toLower
  rw [hcomp]

/-- Unfolding the retry loop at a successful attempt. -/
theorem fetchLoop_of_ok (att : Nat → Except String String) (retries : Int) (i : Nat)
    (hi : (i : Int) < retries) (v : String) (hv : att i = Except.ok v) :
    fetchLoop att retries i = ⟨some (Except.ok v), [], 1⟩ := by
  rw [fetchLoop, dif_pos hi]
  simp only [hv]

/-- Unfolding the retry loop at a failed final attempt: the error is rethrown. -/
theorem fetchLoop_of_error_last (att : Nat → Except String String) (retries : Int) (i : Nat)
    (hi : (i : Int) < retries) (hlast : (i : Int) = retries - 1) (e : String)
    (he : att i = Except.error e) :
    fetchLoop att retries i = ⟨some (Except.error e), [], 1⟩ := by
  rw [fetchLoop, dif_pos hi]
  simp only [he]
  rw [if_pos hlast]

/-- Unfolding the retry loop at a failed non-final attempt: sleep `1000 * 2^i`
and continue with the next index. -/
theorem fetchLoop_of_error_cont (att : Nat → Except String String) (retries : Int) (i : Nat)
    (hi : (i : Int) < retries) (hne : ¬((i : Int) = retries - 1)) (e : String)
    (he : att i = Except.error e) :
    fetchLoop att retries i =
      ⟨(fetchLoop att retries (i + 1)).result,
        1000 * 2 ^ i :: (fetchLoop att retries (i + 1)).delays,
        (fetchLoop att retries (i + 1)).attempts + 1⟩ := by
  rw [fetchLoop, dif_pos hi]
  simp only [he]
  rw [if_neg hne]

/-- If every attempt up to `n` fails, the loop started at `i < n` performs the
remaining `n - i` attempts, sleeps after each non-final one, and ends with the
final attempt's outcome. -/
theorem fetchLoop_all_fail (att : Nat → Except String String) (n : Nat)
    (hfail : ∀ j, j < n → ∃ e, att j = Except.error e) :
    ∀ f i, n - i = f → i < n →
      fetchLoop att (n : Int) i =
        ⟨some (att (n - 1)),
          (List.range' i (n - 1 - i)).map (fun k => 1000 * 2 ^ k), n - i⟩ := by
  intro f
  induction f with
  | zero => intro i hf hi; omega
  | succ f ih =>
    intro i hf hi
    have hi' : (i : Int) < (n : Int) := by exact_mod_cast hi
    obtain ⟨e, he⟩ := hfail i hi
    by_cases hlast : i = n - 1
    · rw [fetchLoop_of_error_last att (n : Int) i hi' (by omega) e he]
      have h1 : att (n - 1) = Except.error e := hlast ▸ he
      rw [h1]
      have h0 : n - 1 - i = 0 := by omega
      rw [h0]
      simp only [FetchOutcome.mk.injEq, List.range'_zero, List.map_nil, eq_self_iff_true,
        true_and, and_true]
      omega
    · have hne : ¬((i : Int) = (n : Int) - 1) := by omega
      rw [fetchLoop_of_error_cont att (n : Int) i hi' hne e he]
      rw [ih (i + 1) (by omega) (by omega)]
      have hr : n - 1 - i = (n - 1 - (i + 1)) + 1 := by omega
      rw [hr, List.range'_succ, List.map_cons]
      simp only [FetchOutcome.mk.injEq, eq_self_iff_true, true_and, and_true]
      omega

/-- If the first successful attempt is attempt `k`, the loop started at
`i ≤ k` performs attempts `i` through `k`, sleeping after each failed one, and
returns the parsed body of attempt `k`. -/
theorem fetchLoop_first_success (att : Nat → Except String String) (n k : Nat) (v : String)
    (hk : k < n) (hv : att k = Except.ok v)
    (hfail : ∀ j, j < k → ∃ e, att j = Except.error e) :
    ∀ f i, k - i = f → i ≤ k →
      fetchLoop att (n : Int) i =
        ⟨some (Except.ok v),
          (List.range' i (k - i)).map (fun m => 1000 * 2 ^ m), k + 1 - i⟩ := by
  intro f
  induction f with
  | zero =>
    intro i hf hi
    have hik : i = k := by omega
    subst hik
    rw [fetchLoop_of_ok att (n : Int) i (by exact_mod_cast hk) v hv]
    simp only [FetchOutcome.mk.injEq, Nat.sub_self, List.range'_zero, List.map_nil,
      eq_self_iff_true, true_and, and_true]
    omega
  | succ f ih =>
    intro i hf hi
    have hik : i < k := by omega
    obtain ⟨e, he⟩ := hfail i hik
    have hi' : (i : Int) < (n : Int) := by exact_mod_cast (by omega : i < n)
    have hne : ¬((i : Int) = (n : Int) - 1) := by omega
    rw [fetchLoop_of_error_cont att (n : Int) i hi' hne e he]
    rw [ih (i + 1) (by omega) (by omega)]
    have hr : k - i = (k - (i + 1)) + 1 := by omega
    rw [hr, List.range'_succ, List.map_cons]
    simp only [FetchOutcome.mk.injEq, eq_self_iff_true, true_and, and_true]
    omega

/-- A left fold accumulating `+ f y` computes the sum of the mapped list. -/
theorem foldl_add_map (f : YieldRecord → ℚ) :
    ∀ (l : List YieldRecord) (a : ℚ),
      l.foldl (fun s y => s + f y) a = a + (l.map f).sum := by
  intro l
  induction l with
  | nil => intro a; simp
  | cons x xs ih =>
    intro a
    simp only [List.foldl_cons, List.map_cons, List.sum_cons, ih]
    ring

/-- The seed of a `max` fold bounds the fold from below. -/
theorem le_foldl_max : ∀ (xs : List ℚ) (a : ℚ), a ≤ xs.foldl max a := by
  intro xs
  induction xs with
  | nil => intro a; simp
  | cons x xs ih =>
    intro a
    exact le_trans (le_max_left a x) (ih (max a x))

/-- Every member of the list bounds a `max` fold from below. -/
theorem mem_le_foldl_max : ∀ (xs : List ℚ) (a y : ℚ), y ∈ xs → y ≤ xs.foldl max a := by
  intro xs
  induction xs with
  | nil => intro a y hy; cases hy
  | cons x xs ih =>
    intro a y hy
    rcases List.mem_cons.mp hy with h | h
    · subst h
      exact le_trans (le_max_right a y) (le_foldl_max xs (max a y))
    · exact ih (max a x) y h

/-- A `max` fold returns its seed or a member of the list. -/
theorem foldl_max_mem : ∀ (xs : List ℚ) (a : ℚ), xs.foldl max a = a ∨ xs.foldl max a ∈ xs := by
  intro xs
  induction xs with
  | nil => intro a; left; rfl
  | cons x xs ih =>
    intro a
    rcases ih (max a x) with h | h
    · rcases max_choice a x with hm | hm
      · left; rw [List.foldl_cons, h, hm]
      · right; rw [List.foldl_cons, h, hm]; exact List.mem_cons_self x xs
    · right; exact List.mem_cons_of_mem x h

/-- The seed of a `min` fold bounds the fold from above. -/
theorem foldl_min_le : ∀ (xs : List ℚ) (a : ℚ), xs.foldl min a ≤ a := by
  intro xs
  induction xs with
  | nil => intro a; simp
  | cons x xs ih =>
    intro a
    exact le_trans (ih (min a x)) (min_le_left a x)

/-- A `min` fold bounds every member of the list from below. -/
theorem foldl_min_le_mem : ∀ (xs : List ℚ) (a y : ℚ), y ∈ xs → xs.foldl min a ≤ y := by
  intro xs
  induction xs with
  | nil => intro a y hy; cases hy
  | cons x xs ih =>
    intro a y hy
    rcases List.mem_cons.mp hy with h | h
    · subst h
      exact le_trans (foldl_min_le xs (min a y)) (min_le_right a y)
    · exact ih (min a x) y h

/-- A `min` fold returns its seed or a member of the list. -/
theorem foldl_min_mem : ∀ (xs : List ℚ) (a : ℚ), xs.foldl min a = a ∨ xs.foldl min a ∈ xs := by
  intro xs
  induction xs with
  | nil => intro a; left; rfl
  | cons x xs ih =>
    intro a
    rcases ih (min a x) with h | h
    · rcases min_choice a x with hm | hm
      · left; rw [List.foldl_cons, h, hm]
      · right; rw [List.foldl_cons, h, hm]; exact List.mem_cons_self x xs
    · right; exact List.mem_cons_of_mem x h

/-- `Math.max` of a nonempty list is one of its members. -/
theorem maxNum_mem {xs : List ℚ} (h : xs ≠ []) : maxNum xs ∈ xs := by
  match xs with
  | [] => exact absurd rfl h
  | x :: xs =>
    rcases foldl_max_mem xs x with h1 | h1
    · rw [maxNum, h1]; exact List.mem_cons_self x xs
    · rw [maxNum]; exact List.mem_cons_of_mem x h1

/-- Every member of a list is at most its `Math.max`. -/
theorem le_maxNum {xs : List ℚ} {y : ℚ} (hy : y ∈ xs) : y ≤ maxNum xs := by
  match xs with
  | [] => cases hy
  | x :: xs =>
    rcases List.mem_cons.mp hy with h | h
    · subst h; rw [maxNum]; exact le_foldl_max xs y
    · rw [maxNum]; exact mem_le_foldl_max xs x y h

/-- `Math.min` of a nonempty list is one of its members. -/
theorem minNum_mem {xs : List ℚ} (h : xs ≠ []) : minNum xs ∈ xs := by
  match xs with
  | [] => exact absurd rfl h
  | x :: xs =>
    rcases foldl_min_mem xs x with h1 | h1
    · rw [minNum, h1]; exact List.mem_cons_self x xs
    · rw [minNum]; exact List.mem_cons_of_mem x h1

/-- `Math.min` of a list is at most every member. -/
theorem minNum_le {xs : List ℚ} {y : ℚ} (hy : y ∈ xs) : minNum xs ≤ y := by
  match xs with
  | [] => cases hy
  | x :: xs =>
    rcases List.mem_cons.mp hy with h | h
    · subst h; rw [minNum]; exact foldl_min_le xs y
    · rw [minNum]; exact foldl_min_le_mem xs x y h

/-- A list sum is at most the length times an upper bound of its members. -/
theorem list_sum_le {xs : List ℚ} {M : ℚ} (h : ∀ x ∈ xs, x ≤ M) :
    xs.sum ≤ (xs.length : ℚ) * M := by
  induction xs with
  | nil => simp
  | cons x xs ih =>
    simp only [List.sum_cons, List.length_cons]
    push_cast
    have h1 : x ≤ M := h x (List.mem_cons_self x xs)
    have h2 : xs.sum ≤ (xs.length : ℚ) * M := ih (fun y hy => h y (List.mem_cons_of_mem x hy))
    nlinarith

/-- A list sum is at least the length times a lower bound of its members. -/
theorem list_le_sum {xs : List ℚ} {m : ℚ} (h : ∀ x ∈ xs, m ≤ x) :
    (xs.length : ℚ) * m ≤ xs.sum := by
  induction xs with
  | nil => simp
  | cons x xs ih =>
    simp only [List.sum_cons, List.length_cons]
    push_cast
    have h1 : m ≤ x := h x (List.mem_cons_self x xs)
    have h2 : (xs.length : ℚ) * m ≤ xs.sum := ih (fun y hy => h y (List.mem_cons_of_mem x hy))
    nlinarith

/-- The `Set`-based deduplication emits no duplicates and nothing already seen. -/
theorem dedupFirstAux_nodup :
    ∀ (l seen : List String),
      (dedupFirstAux seen l).Nodup ∧ ∀ x ∈ dedupFirstAux seen l, x ∉ seen := by
  intro l
  induction l with
  | nil => intro seen; simp [dedupFirstAux]
  | cons x xs ih =>
    intro seen
    by_cases hx : x ∈ seen
    · rw [dedupFirstAux, if_pos hx]
      exact ih seen
    · rw [dedupFirstAux, if_neg hx]
      obtain ⟨hnd, hdisj⟩ := ih (x :: seen)
      refine ⟨List.nodup_cons.mpr ⟨fun hmem => ?_, hnd⟩, ?_⟩
      · exact hdisj x hmem (List.mem_cons_self x seen)
      · intro y hy
        rcases List.mem_cons.mp hy with h | h
        · subst h; exact hx
        · intro hseen
          exact hdisj y h (List.mem_cons_of_mem x hseen)

/-- `[...new Set(xs)]` contains no duplicates. -/
theorem dedupFirst_nodup (xs : List String) : (dedupFirst xs).Nodup :=
  (dedupFirstAux_nodup xs []).1

/-! ### Claim theorems -/

/-- Claim C2: for every `maxAttempts` `n ≥ 1`, if every attempt fails,
`fetchJSON` performs exactly `n` fetch attempts, sleeping `1000 * 2 ^ i` ms
after failed attempt `i` for each `i < n - 1` (delays 1s, 2s, 4s, ...), and
propagates the failure of the final attempt to the caller instead of
retrying; on any (first) successful attempt it returns the parsed JSON body
immediately. -/
theorem fetchWithRetry_backoff_contract (att : Nat → Except String String) (n : Nat)
    (hn : 1 ≤ n) :
    ((∀ j, j < n → ∃ e, att j = Except.error e) →
      fetchWithRetry att (n : Int) =
        ⟨some (att (n - 1)), (List.range (n - 1)).map (fun k => 1000 * 2 ^ k), n⟩) ∧
    (∀ k v, k < n → att k = Except.ok v → (∀ j, j < k → ∃ e, att j = Except.error e) →
      fetchWithRetry att (n : Int) =
        ⟨some (Except.ok v), (List.range k).map (fun m => 1000 * 2 ^ m), k + 1⟩) := by
  constructor
  · intro hfail
    unfold fetchWithRetry
    rw [fetchLoop_all_fail att n hfail n 0 (by omega) (by omega)]
    simp [List.range_eq_range']
  · intro k v hk hv hfail
    unfold fetchWithRetry
    rw [fetchLoop_first_success att n k v hk hv hfail k 0 (by omega) (by omega)]
    simp [List.range_eq_range']

/-- Concrete instantiations of the retry contract: three attempts that all
fail with HTTP 500 produce exactly 3 attempts with sleeps 1000 ms and 2000 ms
and settle with the final error; a success at the second attempt returns that
body after one sleep. -/
theorem fetchWithRetry_backoff_contract_witness :
    fetchWithRetry (fun _ => Except.error "HTTP 500") ((3 : Nat) : Int) =
      ⟨some (Except.error "HTTP 500"), [1000, 2000], 3⟩ ∧
    fetchWithRetry (fun i => if i = 1 then Except.ok "body" else Except.error "HTTP 500")
        ((3 : Nat) : Int) =
      ⟨some (Except.ok "body"), [1000], 2⟩ := by
  constructor
  · have h := (fetchWithRetry_backoff_contract (fun _ => Except.error "HTTP 500") 3
      (by norm_num)).1 (fun j _ => ⟨"HTTP 500", rfl⟩)
    rw [h]
    simp only [FetchOutcome.mk.injEq]
    refine ⟨trivial, by decide, trivial⟩
  · have h := (fetchWithRetry_backoff_contract
      (fun i => if i = 1 then Except.ok "body" else Except.error "HTTP 500") 3
      (by norm_num)).2 1 "body" (by norm_num) (by norm_num)
      (fun j hj => ⟨"HTTP 500", by interval_cases j; rfl⟩)
    rw [h]
    simp only [FetchOutcome.mk.injEq]
    refine ⟨trivial, by decide, trivial⟩

/-- Claim C10: called with `retries ≤ 0`, the loop body of `fetchWithRetry`
never executes: no fetch attempt is performed, no sleep happens, no error is
raised, and the promise settles with `undefined` rather than a parsed body. -/
theorem fetchWithRetry_nonpositive (att : Nat → Except String String) (retries : Int)
    (h : retries ≤ 0) : fetchWithRetry att retries = ⟨none, [], 0⟩ := by
  unfold fetchWithRetry
  rw [fetchLoop, dif_neg (by push_cast; omega)]

/-- Concrete instantiation: `retries = -1` yields no attempts, no delays and
an `undefined` result. -/
theorem fetchWithRetry_nonpositive_witness :
    fetchWithRetry (fun _ => Except.error "HTTP 500") (-1) = ⟨none, [], 0⟩ :=
  fetchWithRetry_nonpositive (fun _ => Except.error "HTTP 500") (-1) (by norm_num)

/-- Claim C9: the promises returned by `fetchDefiLlamaYields` and
`fetchPendleYields` never reject — every internal error is caught and turned
into a list — so in the handler's `Promise.allSettled` merge every status is
fulfilled and the rejected-status fallback branches contributing `[]` are
never what the merge uses: the merged data is exactly the three adapters'
resolved lists. -/
theorem adapters_never_reject (now : String) :
    (∀ resp, ∃ v, fetchDefiLlamaYieldsE now resp = Except.ok v) ∧
    (∀ r1 r2, ∃ v, fetchPendleYieldsE now r1 r2 = Except.ok v) ∧
    (∀ llamaResp ethResp arbResp,
      allYieldsOf now llamaResp ethResp arbResp =
        fetchDefiLlamaYields now llamaResp ++ fetchPendleYields now ethResp arbResp ++
          getManualYieldData now) := by
  refine ⟨?_, ?_, ?_⟩
  · intro resp
    cases resp with
    | ok r => exact ⟨_, rfl⟩
    | error e => exact ⟨[], rfl⟩
  · intro r1 r2
    exact ⟨_, rfl⟩
  · intro llamaResp ethResp arbResp
    rfl

/-- Concrete instantiation: with the DeFiLlama fetch rejected, the adapter's
promise still fulfills (with some list). -/
theorem adapters_never_reject_witness :
    ∃ v, fetchDefiLlamaYieldsE "t" (Except.error "network down") = Except.ok v :=
  (adapters_never_reject "t").1 (Except.error "network down")

/-- Claim C1: any error inside the DeFiLlama or Pendle adapter is caught at
the adapter boundary and converted to an empty list, never propagated to the
aggregator; for every combination of upstream failures a GET request yields
HTTP 200 with the success envelope (data possibly empty), and the statistics
of an empty record set are zeroed — never an error response. -/
theorem adapter_failures_contained (now : String) :
    (∀ e, fetchDefiLlamaYields now (Except.error e) = []) ∧
    (∀ e1 e2, fetchPendleYields now (Except.error e1) (Except.error e2) = []) ∧
    (∀ method llamaResp ethResp arbResp, method = "GET" →
      ∃ d s, handler method now llamaResp ethResp arbResp =
        ⟨200, some (RespBody.success d s)⟩) ∧
    ((stats now []).avgAPY = 0 ∧ (stats now []).maxAPY = 0 ∧ (stats now []).minAPY = 0 ∧
      (stats now []).totalTVL = 0 ∧ (stats now []).totalOpportunities = 0) := by
  refine ⟨fun e => rfl, fun e1 e2 => rfl, ?_, by simp [stats]⟩
  intro method llamaResp ethResp arbResp hm
  subst hm
  exact ⟨_, _, rfl⟩

/-- Concrete instantiation: with every upstream fetch rejected, a GET request
still produces an HTTP 200 success envelope. -/
theorem adapter_failures_contained_witness :
    ∃ d s, handler "GET" "t" (Except.error "llama down") (Except.error "eth down")
        (Except.error "arb down") = ⟨200, some (RespBody.success d s)⟩ :=
  (adapter_failures_contained "t").2.2.1 "GET" (Except.error "llama down")
    (Except.error "eth down") (Except.error "arb down") rfl

/-- Claim C8: an OPTIONS request yields HTTP 200 with empty body; any method
other than GET and OPTIONS yields HTTP 405 with the
`{success: false, error: "Method not allowed"}` body; a GET yields HTTP 200
with `{success: true, data, stats}` where `data` concatenates DeFiLlama
records, then Pendle records, then Manual records, in that fixed order. -/
theorem handler_http_contract (now : String) (llamaResp : Except String LlamaResp)
    (ethResp arbResp : Except String PendleResp) :
    handler "OPTIONS" now llamaResp ethResp arbResp = ⟨200, none⟩ ∧
    (∀ method, method ≠ "GET" → method ≠ "OPTIONS" →
      handler method now llamaResp ethResp arbResp =
        ⟨405, some (RespBody.failure "Method not allowed")⟩) ∧
    handler "GET" now llamaResp ethResp arbResp =
      ⟨200, some (RespBody.success
        (fetchDefiLlamaYields now llamaResp ++ fetchPendleYields now ethResp arbResp ++
          getManualYieldData now)
        (stats now
          (fetchDefiLlamaYields now llamaResp ++ fetchPendleYields now ethResp arbResp ++
            getManualYieldData now)))⟩ := by
  refine ⟨rfl, ?_, rfl⟩
  intro method hget hopt
  rw [handler, if_neg hopt, if_pos hget]

/-- Concrete instantiation: a POST request is rejected with 405 and the
method-not-allowed envelope. -/
theorem handler_http_contract_witness :
    handler "POST" "t" (Except.error "x") (Except.error "y") (Except.error "z") =
      ⟨405, some (RespBody.failure "Method not allowed")⟩ :=
  (handler_http_contract "t" (Except.error "x") (Except.error "y")
    (Except.error "z")).2.1 "POST" (by decide) (by decide)

/-- Every record of the DeFiLlama adapter's output is the image of a pool
that passes the adapter's filter. -/
theorem mem_fetchDefiLlamaYields {now : String} {resp : Except String LlamaResp}
    {y : YieldRecord} (hy : y ∈ fetchDefiLlamaYields now resp) :
    ∃ p, llamaPoolOk p = true ∧ y = mkLlamaRecord now p := by
  cases resp with
  | error e => cases hy
  | ok r =>
    obtain ⟨p, hp, hmap⟩ := List.mem_map.mp hy
    have hpf : p ∈ r.data.filter llamaPoolOk := (List.take_sublist 30 _).subset hp
    exact ⟨p, (List.mem_filter.mp hpf).2, hmap.symm⟩

/-- Every record of a Pendle per-chain contribution is the image of a market
that passes the adapter's filter. -/
theorem mem_pendleChainRecords {now chainName : String} {resp : Except String PendleResp}
    {y : YieldRecord} (hy : y ∈ pendleChainRecords now chainName resp) :
    ∃ m, pendleMarketOk m = true ∧ y = mkPendleRecord now chainName m := by
  cases resp with
  | error e => cases hy
  | ok data =>
    cases hres : data.results with
    | none => rw [pendleChainRecords, hres] at hy; cases hy
    | some results =>
      rw [pendleChainRecords, hres] at hy
      obtain ⟨m, hm, hmap⟩ := List.mem_map.mp hy
      have hmf : m ∈ results.filter pendleMarketOk := (List.take_sublist 5 _).subset hm
      exact ⟨m, (List.mem_filter.mp hmf).2, hmap.symm⟩

/-- Claim C3: every record the DeFiLlama adapter returns comes from a pool
flagged as a stablecoin pool with `tvlUsd > 1,000,000` and `apy < 200`; the
adapter returns at most 30 records, drawn from a sublist of the upstream pool
list (so the relative upstream ordering of matching pools is preserved). -/
theorem defillama_filter_cap_order (now : String) (resp : Except String LlamaResp) :
    (fetchDefiLlamaYields now resp).length ≤ 30 ∧
    ∃ sel : List LlamaPool,
      sel.Sublist (llamaRespData resp) ∧
      (∀ p ∈ sel, p.stablecoin = true ∧ p.tvlUsd > 1000000 ∧ p.apy < 200) ∧
      fetchDefiLlamaYields now resp = sel.map (mkLlamaRecord now) := by
  cases resp with
  | error e =>
    refine ⟨by simp [fetchDefiLlamaYields, fetchDefiLlamaYieldsE, llamaBody, tryCatchE,
      Except.map], [], List.Sublist.refl [], by simp, rfl⟩
  | ok r =>
    constructor
    · show (((r.data.filter llamaPoolOk).take 30).map (mkLlamaRecord now)).length ≤ 30
      rw [List.length_map]
      exact le_trans (List.length_take_le 30 _) le_rfl
    · refine ⟨(r.data.filter llamaPoolOk).take 30,
        (List.take_sublist 30 _).trans (List.filter_sublist r.data), ?_, rfl⟩
      intro p hp
      have hpf : p ∈ r.data.filter llamaPoolOk := (List.take_sublist 30 _).subset hp
      have hok : llamaPoolOk p = true := (List.mem_filter.mp hpf).2
      rw [llamaPoolOk] at hok
      simp only [Bool.and_eq_true, decide_eq_true_eq] at hok
      exact ⟨hok.1.1, hok.1.2, hok.2⟩

/-- Concrete instantiation: a failed DeFiLlama fetch yields at most (in fact
exactly) zero records. -/
theorem defillama_filter_cap_order_witness :
    (fetchDefiLlamaYields "t" (Except.error "HTTP 500")).length ≤ 30 :=
  (defillama_filter_cap_order "t" (Except.error "HTTP 500")).1

/-- Claim C4: the Pendle adapter's output is the Ethereum chain's
contribution followed by the Arbitrum chain's contribution — so a failure
fetching one chain's markets does not abort or suppress the other chain's
records; each chain contributes at most 5 records, every contributed record's
underlying asset symbol contains "USD" and its `totalActiveLiquidity` exceeds
1,000,000; and a failed chain contributes exactly the empty set. -/
theorem pendle_cap_usd_isolation (now : String) (r1 r2 : Except String PendleResp) :
    fetchPendleYields now r1 r2 =
      pendleChainRecords now "Ethereum" r1 ++ pendleChainRecords now "Arbitrum" r2 ∧
    (∀ chainName r, (pendleChainRecords now chainName r).length ≤ 5) ∧
    (∀ chainName r, ∀ y ∈ pendleChainRecords now chainName r,
      strIncludes y.stablecoin "USD" = true ∧ y.tvl > 1000000) ∧
    (∀ chainName e, pendleChainRecords now chainName (Except.error e) = []) := by
  refine ⟨rfl, ?_, ?_, fun chainName e => rfl⟩
  · intro chainName r
    cases r with
    | error e => simp [pendleChainRecords]
    | ok data =>
      cases hres : data.results with
      | none => simp [pendleChainRecords, hres]
      | some results =>
        rw [pendleChainRecords, hres]
        rw [List.length_map]
        exact List.length_take_le 5 _
  · intro chainName r y hy
    obtain ⟨m, hok, hmk⟩ := mem_pendleChainRecords hy
    rw [pendleMarketOk] at hok
    simp only [Bool.and_eq_true, decide_eq_true_eq] at hok
    subst hmk
    exact ⟨hok.1, hok.2⟩

/-- Concrete instantiation: a failed Ethereum fetch contributes the empty
set, and the merge is still the concatenation of the two chains. -/
theorem pendle_cap_usd_isolation_witness :
    pendleChainRecords "t" "Ethereum" (Except.error "HTTP 500") = [] :=
  (pendle_cap_usd_isolation "t" (Except.error "HTTP 500")
    (Except.ok ⟨none⟩)).2.2.2 "Ethereum" "HTTP 500"

/-- The DeFiLlama adapter's output on an upstream response consisting of the
single pool `badPool`: the pool passes every filter, so its record is
returned. -/
theorem llama_badPool_output :
    fetchDefiLlamaYields "t" (Except.ok ⟨[badPool]⟩) = [mkLlamaRecord "t" badPool] := rfl

/-- Claim C6 as stated is false: the DeFiLlama adapter's filters bound `apy`
only from above, so an upstream pool reporting a negative APY (here `-1`)
passes them and produces a record with `apy < 0`. -/
theorem apy_nonneg_counterexample :
    ∃ y ∈ fetchDefiLlamaYields "t" (Except.ok ⟨[badPool]⟩), y.apy < 0 := by
  refine ⟨mkLlamaRecord "t" badPool, ?_, ?_⟩
  · rw [llama_badPool_output]
    exact List.mem_singleton_self _
  · show round2 badPool.apy < 0
    norm_num [round2, badPool]

/-- Claim C6 (amended): every `YieldRecord` produced by any adapter has `apy`
rounded to 2 decimal places (an integer multiple of `1/100`); the Manual
adapter's records additionally have `apy ≥ 0`, but the DeFiLlama and Pendle
adapters do not enforce a lower bound on `apy`. -/
theorem apy_two_decimals :
    (∀ now resp, ∀ y ∈ fetchDefiLlamaYields now resp, ∃ k : ℤ, y.apy = k / 100) ∧
    (∀ now r1 r2, ∀ y ∈ fetchPendleYields now r1 r2, ∃ k : ℤ, y.apy = k / 100) ∧
    (∀ now, ∀ y ∈ getManualYieldData now, (∃ k : ℤ, y.apy = k / 100) ∧ 0 ≤ y.apy) := by
  refine ⟨?_, ?_, ?_⟩
  · intro now resp y hy
    obtain ⟨p, _, rfl⟩ := mem_fetchDefiLlamaYields hy
    exact ⟨⌊100 * p.apy + 1 / 2⌋, rfl⟩
  · intro now r1 r2 y hy
    have hy2 : y ∈ pendleChainRecords now "Ethereum" r1 ++
        pendleChainRecords now "Arbitrum" r2 := hy
    rcases List.mem_append.mp hy2 with h | h
    all_goals obtain ⟨m, _, rfl⟩ := mem_pendleChainRecords h
    all_goals exact ⟨⌊100 * (m.impliedApy * 100) + 1 / 2⌋, rfl⟩
  · intro now y hy
    simp only [getManualYieldData, List.mem_cons, List.not_mem_nil, or_false] at hy
    rcases hy with rfl | rfl | rfl
    · exact ⟨⟨525, by norm_num⟩, by norm_num⟩
    · exact ⟨⟨850, by norm_num⟩, by norm_num⟩
    · exact ⟨⟨2350, by norm_num⟩, by norm_num⟩

/-- Concrete instantiation: the record built from `badPool` has an apy that
is an integer multiple of `1/100`. -/
theorem apy_two_decimals_witness :
    ∃ k : ℤ, (mkLlamaRecord "t" badPool).apy = k / 100 := by
  apply apy_two_decimals.1 "t" (Except.ok ⟨[badPool]⟩) (mkLlamaRecord "t" badPool)
  rw [llama_badPool_output]
  exact List.mem_singleton_self _

/-- Claim C7: `categorize` is deterministic (a pure function of its input)
and case-insensitive; it returns, capitalized, the first category in table
order one of whose keywords occurs in the lowercased name, and `"Other"` when
no keyword matches; in particular `categorize("Aave V3") = "Lending"`,
`categorize("Uniswap V3") = "Dex"`, `categorize("Random Protocol") = "Other"`. -/
theorem categorizeProtocol_spec :
    (∀ s, categorizeProtocol s = categorizeProtocol (toLowerStr s)) ∧
    (∀ s cat,
      categories.find? (fun c => c.2.any (fun k => strIncludes (toLowerStr s) k)) = some cat →
      categorizeProtocol s = capitalize cat.1) ∧
    (∀ s, (∀ c ∈ categories, ∀ k ∈ c.2, strIncludes (toLowerStr s) k = false) →
      categorizeProtocol s = "Other") ∧
    categorizeProtocol "Aave V3" = "Lending" ∧
    categorizeProtocol "Uniswap V3" = "Dex" ∧
    categorizeProtocol "Random Protocol" = "Other" := by
  refine ⟨?_, ?_, ?_, by decide, by decide, by decide⟩
  · intro s
    simp only [categorizeProtocol]
    rw [toLowerStr_idem]
  · intro s cat hfind
    simp only [categorizeProtocol]
    rw [hfind]
  · intro s hnone
    have hfind : categories.find?
        (fun c => c.2.any (fun k => strIncludes (toLowerStr s) k)) = none := by
      rw [List.find?_eq_none]
      intro x hx hany
      obtain ⟨k, hk, hinc⟩ := List.any_eq_true.mp hany
      rw [hnone x hx k hk] at hinc
      cases hinc
    simp only [categorizeProtocol]
    rw [hfind]

/-- Concrete instantiations: case-insensitivity at a mixed-case name, and the
no-keyword-matches hypothesis discharged at "Random Protocol". -/
theorem categorizeProtocol_spec_witness :
    categorizeProtocol "AAVE v3" = categorizeProtocol (toLowerStr "AAVE v3") ∧
    categorizeProtocol "Random Protocol" = "Other" := by
  constructor
  · exact categorizeProtocol_spec.1 "AAVE v3"
  · exact categorizeProtocol_spec.2.2.1 "Random Protocol" (by decide)

/-- Claim C5: `totalOpportunities` is the record count, `totalTVL` the exact
sum of the records' `tvl`, `sources` and `chains` contain no duplicates, and
`avgAPY`/`maxAPY`/`minAPY` are all 0 for the empty set and otherwise the
mean, maximum and minimum of the records' `apy`, with
`minAPY ≤ avgAPY ≤ maxAPY`. -/
theorem stats_aggregate_spec (now : String) (l : List YieldRecord) :
    (stats now l).totalOpportunities = l.length ∧
    (stats now l).totalTVL = (l.map (·.tvl)).sum ∧
    (stats now l).sources.Nodup ∧
    (stats now l).chains.Nodup ∧
    (l = [] → (stats now l).avgAPY = 0 ∧ (stats now l).maxAPY = 0 ∧
      (stats now l).minAPY = 0) ∧
    (l ≠ [] →
      (stats now l).avgAPY = (l.map (·.apy)).sum / (l.length : ℚ) ∧
      (stats now l).maxAPY ∈ l.map (·.apy) ∧
      (∀ x ∈ l.map (·.apy), x ≤ (stats now l).maxAPY) ∧
      (stats now l).minAPY ∈ l.map (·.apy) ∧
      (∀ x ∈ l.map (·.apy), (stats now l).minAPY ≤ x) ∧
      (stats now l).minAPY ≤ (stats now l).avgAPY ∧
      (stats now l).avgAPY ≤ (stats now l).maxAPY) := by
  refine ⟨rfl, ?_, dedupFirst_nodup _, dedupFirst_nodup _, ?_, ?_⟩
  · show l.foldl (fun sum y => sum + y.tvl) 0 = (l.map (·.tvl)).sum
    rw [foldl_add_map, zero_add]
  · intro hl
    subst hl
    exact ⟨rfl, rfl, rfl⟩
  · intro hl
    have hlen : 0 < l.length := List.length_pos.mpr hl
    have hlenQ : (0 : ℚ) < (l.length : ℚ) := by exact_mod_cast hlen
    have hm : l.map (·.apy) ≠ [] := fun hmm => hl (List.map_eq_nil_iff.mp hmm)
    have havg : (stats now l).avgAPY = (l.map (·.apy)).sum / (l.length : ℚ) := by
      show (if l.length > 0 then l.foldl (fun sum y => sum + y.apy) 0 / (l.length : ℚ)
        else 0) = _
      rw [if_pos hlen, foldl_add_map, zero_add]
    have hmax : (stats now l).maxAPY = maxNum (l.map (·.apy)) := by
      show (if l.length > 0 then maxNum (l.map (·.apy)) else 0) = _
      rw [if_pos hlen]
    have hmin : (stats now l).minAPY = minNum (l.map (·.apy)) := by
      show (if l.length > 0 then minNum (l.map (·.apy)) else 0) = _
      rw [if_pos hlen]
    refine ⟨havg, ?_, ?_, ?_, ?_, ?_, ?_⟩
    · rw [hmax]; exact maxNum_mem hm
    · intro x hx; rw [hmax]; exact le_maxNum hx
    · rw [hmin]; exact minNum_mem hm
    · intro x hx; rw [hmin]; exact minNum_le hx
    · rw [hmin, havg, le_div_iff₀ hlenQ]
      have hs := @list_le_sum (l.map (·.apy)) (minNum (l.map (·.apy))) (fun x hx => minNum_le hx)
      rw [List.length_map] at hs
      rw [mul_comm]
      exact hs
    · rw [havg, hmax, div_le_iff₀ hlenQ]
      have hs := @list_sum_le (l.map (·.apy)) (maxNum (l.map (·.apy))) (fun x hx => le_maxNum hx)
      rw [List.length_map] at hs
      rw [mul_comm]
      exact hs

/-- Concrete instantiations: zeroed average on the empty set, and
`minAPY ≤ avgAPY` on the manual records. -/
theorem stats_aggregate_spec_witness :
    (stats "t" ([] : List YieldRecord)).avgAPY = 0 ∧
    (stats "t" (getManualYieldData "t")).minAPY ≤
      (stats "t" (getManualYieldData "t")).avgAPY := by
  constructor
  · exact ((stats_aggregate_spec "t" []).2.2.2.2.1 rfl).1
  · exact (((stats_aggregate_spec "t" (getManualYieldData "t")).2.2.2.2.2
      (by simp [getManualYieldData])).2.2.2.2.2).1
